import Mathlib

/-!
Verification of the encrypted-transfer core of the `webdav_menager`
repository: a shallow embedding in Lean 4 of the adaptive streaming file
encryptor (`core/encryption.py`), the master-key manager
(`core/master_key.py`), the key store (`core/key_manager.py`) and the
secure transfer service (`services/secure_transfer.py`), together with
proofs about the claims of the specification.

Bytes are modelled as `Nat` (values < 256 in every concrete instance),
byte strings as `List Nat`.  The AES-256 block cipher and the Fernet
cipher are external library primitives; they enter the embedding as
function parameters, and theorems that need their defining properties
(inverse on the same key, failure on a different key) take those
properties as hypotheses.
-/

namespace WebdavManager

/-- A byte-wise xor of two byte strings (truncating to the shorter one),
as performed inside AES-CBC chaining. -/
def zipXor (a b : List Nat) : List Nat :=
  List.zipWith (fun x y => x ^^^ y) a b

/-- Split a byte string into consecutive chunks of 16 bytes (the AES
block size); the final chunk may be shorter.  This is how the byte
stream is consumed block-by-block by the CBC cipher. -/
def bytesToBlocks : List Nat → List (List Nat)
  | [] => []
  | a :: l => (a :: l).take 16 :: bytesToBlocks ((a :: l).drop 16)
  termination_by l => l.length
  decreasing_by simp [List.length_drop]; omega

/-- AES-CBC encryption of a list of plaintext blocks: each block is
xored with the previous ciphertext block (the IV for the first block)
and passed through the block cipher `E`. -/
def cbcEnc (E : List Nat → List Nat) (iv : List Nat) :
    List (List Nat) → List (List Nat)
  | [] => []
  | b :: bs => let c := E (zipXor iv b); c :: cbcEnc E c bs

/-- AES-CBC decryption of a list of ciphertext blocks: each block is
passed through the inverse block cipher `D` and xored with the previous
ciphertext block (the IV for the first block). -/
def cbcDec (D : List Nat → List Nat) (iv : List Nat) :
    List (List Nat) → List (List Nat)
  | [] => []
  | c :: cs => zipXor iv (D c) :: cbcDec D c cs

/-- PKCS7 padding for a 16-byte block size, as applied by the
`padding.PKCS7(128)` padder over the whole plaintext stream: append
`n` copies of the byte `n`, where `n = 16 - len % 16`. -/
def pkcs7pad (pt : List Nat) : List Nat :=
  pt ++ List.replicate (16 - pt.length % 16) (16 - pt.length % 16)

/-- PKCS7 unpadding for a 16-byte block size, as applied by the
`padding.PKCS7(128)` unpadder over the whole decrypted stream: the data
must be a non-empty multiple of 16 bytes, its last byte `n` must satisfy
`1 ≤ n ≤ 16`, and the last `n` bytes must all equal `n`; then those `n`
bytes are removed.  `none` models the `ValueError` the library raises on
invalid padding. -/
def pkcs7unpad (data : List Nat) : Option (List Nat) :=
  if data.length = 0 ∨ data.length % 16 ≠ 0 then none
  else
    match data.getLast? with
    | none => none
    | some n =>
      if n = 0 ∨ 16 < n ∨ data.length < n then none
      else if (data.drop (data.length - n)).all (fun x => x = n) then
        some (data.take (data.length - n))
      else none

/-- Structure `EncryptionKey` from `core/encryption.py`: key id (a short ASCII hex
token, modelled as its UTF-8 bytes), raw 32-byte AES key and 16-byte
salt.  The metadata fields (`name`, `created`, `password_derived`) do
not influence encryption or decryption and carry no invariants used
here. -/
structure EncryptionKey where
  id : List Nat
  key : List Nat
  salt : List Nat
  password_derived : Bool := false
  deriving DecidableEq, Repr

/-- The magic constant `b'WEBDAV_ENC_V2'` that opens every encrypted
container. -/
def MAGIC : List Nat :=
  [87, 69, 66, 68, 65, 86, 95, 69, 78, 67, 95, 86, 50]

/-- The 8-byte key tag written into the container header:
`key.id.encode('utf-8')[:8].ljust(8, b'\x00')`. -/
def keyTag (id : List Nat) : List Nat :=
  id.take 8 ++ List.replicate (8 - (id.take 8).length) 0

/-- Strip trailing zero bytes, as `str.rstrip('\x00')` does on the
decoded key tag. -/
def rstripNulls (l : List Nat) : List Nat :=
  (l.reverse.dropWhile (fun x => x = 0)).reverse

/-- Models `bytes.decode('utf-8')` restricted to the ASCII range: key ids in
this program are hex tokens, so the tags that actually occur are ASCII
and decode to themselves.  A non-ASCII tag byte is modelled as the
generic exception path of `_process_file`. -/
def asciiDecode (l : List Nat) : Option (List Nat) :=
  if l.all (fun x => x < 128) then some l else none

/-- Result of `AdaptiveFileEncryptor._process_file` in decrypt mode,
one constructor per distinct `return` site of the Python code. -/
inductive DecResult where
  /-- Success: `(True, "Файл успешно расшифрован")` with the written plaintext. -/
  | ok (pt : List Nat)
  /-- Failure `(False, "Файл не является зашифрованным")`: bad magic. -/
  | notEncrypted
  /-- Failure `(False, "Неверный ключ шифрования")`: key-tag mismatch. -/
  | wrongKey
  /-- Failure `(False, "Неверный формат зашифрованного файла")`: short header. -/
  | badFormat
  /-- Failure `(False, "Ошибка расшифровки: неверный ключ")`: unpad failure. -/
  | unpadError
  /-- Failure `(False, ...)` via the generic exception handler. -/
  | error
  deriving DecidableEq, Repr

/-- Models `AdaptiveFileEncryptor._process_file` in `'encrypt'` mode, as a
function from the plaintext bytes to the output-container bytes.  `E`
is the AES-256 block encryption keyed by its first argument.  The
streaming chunk loop pads and encrypts the concatenation of all chunks,
so its net effect on the bytes is CBC over the padded plaintext; the
header is `MAGIC ++ key tag ++ IV ++ salt`. -/
def encryptFile (E : List Nat → List Nat → List Nat) (k : EncryptionKey)
    (iv : List Nat) (pt : List Nat) : List Nat :=
  MAGIC ++ keyTag k.id ++ iv ++ k.salt ++
    List.flatten (cbcEnc (E k.key) iv (bytesToBlocks (pkcs7pad pt)))

/-- Models `AdaptiveFileEncryptor._process_file` in `'decrypt'` mode, as a
function from the input-container bytes to the result.  `D` is the
AES-256 block decryption keyed by its first argument.  Mirrors the
Python control flow: magic check, 8-byte tag read/decode/rstrip and
comparison against `key.id[:8]`, IV and salt reads with length checks,
then the chunked CBC decrypt loop whose net effect is unpadding the CBC
decryption of the remaining bytes (for an empty remainder the loop body
never runs and the file is reported decrypted with empty output). -/
def decryptFile (D : List Nat → List Nat → List Nat) (k : EncryptionKey)
    (file : List Nat) : DecResult :=
  if file.take MAGIC.length ≠ MAGIC then .notEncrypted
  else
    let r1 := file.drop MAGIC.length
    match asciiDecode (r1.take 8) with
    | none => .error
    | some tag =>
      if rstripNulls tag ≠ k.id.take 8 then .wrongKey
      else
        let iv := (r1.drop 8).take 16
        let salt := ((r1.drop 8).drop 16).take 16
        if iv.length ≠ 16 ∨ salt.length ≠ 16 then .badFormat
        else
          let ct := (r1.drop 8).drop 32
          if ct.isEmpty then .ok []
          else
            match pkcs7unpad (List.flatten (cbcDec (D k.key) iv
                (bytesToBlocks ct))) with
            | some pt => .ok pt
            | none => .unpadError

/-! ## Adaptive chunk sizing (`AdaptiveFileEncryptor.get_optimal_chunk_size`) -/

/-- Constant `AdaptiveFileEncryptor.BLOCK_SIZE`. -/
def BLOCK_SIZE : Nat := 16

/-- Constant `AdaptiveFileEncryptor.BASE_CHUNK_SIZE` (64 KB). -/
def BASE_CHUNK_SIZE : Nat := 64 * 1024

/-- Constant `AdaptiveFileEncryptor.SMALL_FILE_THRESHOLD` (10 MB). -/
def SMALL_FILE_THRESHOLD : Nat := 10 * 1024 * 1024

/-- Constant `AdaptiveFileEncryptor.MEDIUM_FILE_THRESHOLD` (100 MB). -/
def MEDIUM_FILE_THRESHOLD : Nat := 100 * 1024 * 1024

/-- Constant `AdaptiveFileEncryptor.LARGE_FILE_THRESHOLD` (1 GB). -/
def LARGE_FILE_THRESHOLD : Nat := 1024 * 1024 * 1024

/-- The base-selection step of `get_optimal_chunk_size`: the four-way
threshold cascade on the file size. -/
def chunk_base (fileSize : Nat) : Nat :=
  if fileSize < SMALL_FILE_THRESHOLD then BASE_CHUNK_SIZE * 4
  else if fileSize < MEDIUM_FILE_THRESHOLD then BASE_CHUNK_SIZE * 16
  else if fileSize < LARGE_FILE_THRESHOLD then BASE_CHUNK_SIZE * 64
  else BASE_CHUNK_SIZE * 256

/-- Models `AdaptiveFileEncryptor.get_optimal_chunk_size`.  The instance field
`self._is_ssd` is passed explicitly; after base selection, a non-SSD
storage guess caps the base at 2 MB, and the result is rounded down to
a multiple of `BLOCK_SIZE`. -/
def get_optimal_chunk_size (isSsd : Bool) (fileSize : Nat) : Nat :=
  ((if !isSsd then min (chunk_base fileSize) (BASE_CHUNK_SIZE * 32)
    else chunk_base fileSize) / BLOCK_SIZE) * BLOCK_SIZE

/-! ## Master key manager (`core/master_key.py`) -/

/-- The fixed plaintext `b"VALIDATION_TOKEN"` whose successful
decryption proves password correctness. -/
def VALIDATION_TOKEN : List Nat :=
  [86, 65, 76, 73, 68, 65, 84, 73, 79, 78, 95, 84, 79, 75, 69, 78]

/-- The three persisted artifacts of `MasterKeyManager`: the contents
of `.master_salt.bin`, `.master_key.bin` and `.master_key.backup`
(`none` = the file does not exist on disk). -/
structure MKState where
  saltFile : Option (List Nat)
  masterKeyFile : Option (List Nat)
  backupFile : Option (List Nat)
  deriving DecidableEq, Repr

/-- Models `MasterKeyManager.is_initialized`: checks existence of the master
key file and the salt file. -/
def is_initialized (s : MKState) : Bool :=
  s.masterKeyFile.isSome && s.saltFile.isSome

/-- Models `MasterKeyManager.verify_password`.  Here `kdf` is the
PBKDF2-HMAC-SHA256 derivation (password, salt ↦ 32-byte key); `fdec`
is Fernet decryption, returning `none` where the library raises
`InvalidToken` (the code's `except` then yields `False`). -/
def verify_password (kdf : List Nat → List Nat → List Nat)
    (fdec : List Nat → List Nat → Option (List Nat))
    (s : MKState) (password : List Nat) : Bool :=
  if !is_initialized s then false
  else
    match s.saltFile, s.masterKeyFile with
    | some salt, some enc => (fdec (kdf password salt) enc).isSome
    | _, _ => false

/-- Models `MasterKeyManager.change_password`.  After re-verifying the old
password the code re-reads the salt, re-derives the old key, decrypts
the stored token, draws a fresh salt (`newSalt` models `os.urandom(32)`),
derives the new key with it, re-encrypts, and overwrites salt, token
and backup.  Returns the success flag and the resulting file state; on
any failure the files are untouched. -/
def change_password (kdf : List Nat → List Nat → List Nat)
    (fenc : List Nat → List Nat → List Nat)
    (fdec : List Nat → List Nat → Option (List Nat))
    (s : MKState) (old new newSalt : List Nat) : Bool × MKState :=
  if !verify_password kdf fdec s old then (false, s)
  else
    match s.saltFile, s.masterKeyFile with
    | some salt, some enc =>
      match fdec (kdf old salt) enc with
      | none => (false, s)
      | some data =>
        let newEncrypted := fenc (kdf new newSalt) data
        (true, ⟨some newSalt, some newEncrypted, some newEncrypted⟩)
    | _, _ => (false, s)

/-- Models `MasterKeyManager.restore_from_backup`.  Here `backupData` is the
contents of the caller-supplied backup file (`none` = missing, the
`os.path.exists` guard).  The code reads the backup bytes but never
uses them: it draws a fresh salt, derives a key from the new password,
encrypts a fresh `VALIDATION_TOKEN`, and overwrites all three
artifacts. -/
def restore_from_backup (kdf : List Nat → List Nat → List Nat)
    (fenc : List Nat → List Nat → List Nat)
    (s : MKState) (backupData : Option (List Nat))
    (newPassword newSalt : List Nat) : Bool × MKState :=
  match backupData with
  | none => (false, s)
  | some _ =>
    let newEncrypted := fenc (kdf newPassword newSalt) VALIDATION_TOKEN
    (true, ⟨some newSalt, some newEncrypted, some newEncrypted⟩)

/-! ## Key store (`core/key_manager.py`) -/

/-- The key store's slice of the config directory: the contents of
`encryption_keys.json` (`none` = file absent) and any backup copies of
it living beside it (none are ever created by `KeyManager`). -/
structure KeyStoreState where
  keysFile : Option (List Nat)
  backupCopies : List (List Nat)
  deriving DecidableEq, Repr

/-- Models `KeyManager._load_keys`.  Here `fdec` is Fernet decryption under the
store-protection key; `parse` models `json.loads` over the decrypted
UTF-8 bytes, producing the id-to-record map as an association list
(`none` where the parser raises).  Any failure is caught, logged and
mapped to the empty map; the function performs no file writes, so the
store state is returned unchanged on every path. -/
def load_keys (fdec : List Nat → List Nat → Option (List Nat))
    (parse : List Nat → Option (List (List Nat × List Nat)))
    (masterKey : List Nat) (st : KeyStoreState) :
    List (List Nat × List Nat) × KeyStoreState :=
  match st.keysFile with
  | none => ([], st)
  | some data =>
    if data.isEmpty then ([], st)
    else
      match fdec masterKey data with
      | none => ([], st)
      | some plain =>
        match parse plain with
        | none => ([], st)
        | some keys => (keys, st)

/-! ## Secure transfer service (`services/secure_transfer.py`) -/

/-- Constant `SecureTransferService.ENCRYPTED_EXTENSION` (`'.encrypted'`),
paths being modelled as character lists. -/
def encryptedExtension : List Char :=
  ['.', 'e', 'n', 'c', 'r', 'y', 'p', 't', 'e', 'd']

/-- Models `SecureTransferService.get_encrypted_remote_path`. -/
def get_encrypted_remote_path (originalPath : List Char) : List Char :=
  if encryptedExtension <:+ originalPath then originalPath
  else originalPath ++ encryptedExtension

/-- Models `SecureTransferService.get_decrypted_local_path`. -/
def get_decrypted_local_path (encryptedPath : List Char) : List Char :=
  if encryptedExtension <:+ encryptedPath then
    encryptedPath.take (encryptedPath.length - encryptedExtension.length)
  else encryptedPath

/-- Models `SecureTransferService.is_encrypted_file` on the bytes of an
existing file: compare the leading bytes against the magic. -/
def is_encrypted_file (data : List Nat) : Bool :=
  data.take MAGIC.length = MAGIC

/-- The byte-level behavior of `SecureTransferService.download_decrypted`
after the transport has produced the temp file: if the downloaded bytes
do not carry the magic they are copied through unchanged and the
operation succeeds; otherwise they are decrypted and the plaintext
written.  Returns the success flag and the local destination's content
(`none` on the failure branch, where only an error is emitted and any
partially written output is not modelled). -/
def download_decrypted (D : List Nat → List Nat → List Nat)
    (k : EncryptionKey) (downloaded : List Nat) :
    Bool × Option (List Nat) :=
  if is_encrypted_file downloaded then
    match decryptFile D k downloaded with
    | .ok pt => (true, some pt)
    | _ => (false, none)
  else (true, some downloaded)

/-! ## Helper lemmas -/

theorem zipXor_length (a b : List Nat) :
    (zipXor a b).length = min a.length b.length := by
  simp [zipXor]

theorem zipXor_zipXor : ∀ a b : List Nat, a.length = b.length →
    zipXor a (zipXor a b) = b := by
  intro a
  induction a with
  | nil =>
    intro b hb
    cases b with
    | nil => rfl
    | cons y b => simp at hb
  | cons x a ih =>
    intro b hb
    cases b with
    | nil => simp at hb
    | cons y b =>
      simp only [zipXor, List.zipWith_cons_cons] at *
      simp only [List.cons.injEq]
      exact ⟨by simp [← Nat.xor_assoc],
        ih b (by simp only [List.length_cons] at hb; omega)⟩

theorem bytesToBlocks_flatten : ∀ l : List Nat,
    List.flatten (bytesToBlocks l) = l := by
  intro l
  induction l using bytesToBlocks.induct with
  | case1 => simp [bytesToBlocks]
  | case2 a l ih =>
    rw [bytesToBlocks]
    simp only [List.flatten_cons, ih, List.take_append_drop]

theorem bytesToBlocks_ne_nil (l : List Nat) (h : l ≠ []) :
    bytesToBlocks l ≠ [] := by
  cases l with
  | nil => exact absurd rfl h
  | cons a l => rw [bytesToBlocks]; simp

theorem bytesToBlocks_of_flatten : ∀ bs : List (List Nat),
    (∀ b ∈ bs, b.length = 16) → bytesToBlocks (List.flatten bs) = bs := by
  intro bs
  induction bs with
  | nil => intro _; simp [bytesToBlocks]
  | cons b bs ih =>
    intro h
    have hb : b.length = 16 := h b (by simp)
    have hbs : ∀ x ∈ bs, x.length = 16 := fun x hx => h x (by simp [hx])
    rw [List.flatten_cons]
    cases b with
    | nil => simp at hb
    | cons x b' =>
      rw [List.cons_append, bytesToBlocks]
      rw [← List.cons_append, List.take_left' hb, List.drop_left' hb, ih hbs]

theorem bytesToBlocks_mem_length : ∀ l : List Nat, l.length % 16 = 0 →
    ∀ b ∈ bytesToBlocks l, b.length = 16 := by
  intro l
  induction l using bytesToBlocks.induct with
  | case1 => intro _ b hb; simp [bytesToBlocks] at hb
  | case2 a l ih =>
    intro hmod b hb
    simp only [List.length_cons] at hmod
    rw [bytesToBlocks] at hb
    rcases List.mem_cons.mp hb with h | h
    · subst h
      simp only [List.length_take, List.length_cons]
      omega
    · apply ih _ b h
      simp only [List.length_drop, List.length_cons]
      omega

theorem cbcEnc_length_list (E : List Nat → List Nat) :
    ∀ (bs : List (List Nat)) (iv : List Nat),
    (cbcEnc E iv bs).length = bs.length := by
  intro bs
  induction bs with
  | nil => intro iv; simp [cbcEnc]
  | cons b bs ih => intro iv; simp [cbcEnc, ih]

theorem cbcEnc_mem_length (E : List Nat → List Nat)
    (hE16 : ∀ x : List Nat, x.length = 16 → (E x).length = 16) :
    ∀ (bs : List (List Nat)) (iv : List Nat), iv.length = 16 →
    (∀ b ∈ bs, b.length = 16) → ∀ c ∈ cbcEnc E iv bs, c.length = 16 := by
  intro bs
  induction bs with
  | nil => intro iv _ _ c hc; simp [cbcEnc] at hc
  | cons b bs ih =>
    intro iv hiv hbs c hc
    have hb : b.length = 16 := hbs b (by simp)
    have hxor : (zipXor iv b).length = 16 := by
      simp [zipXor_length, hiv, hb]
    have hcb : (E (zipXor iv b)).length = 16 := hE16 _ hxor
    simp only [cbcEnc] at hc
    rcases List.mem_cons.mp hc with h | h
    · subst h; exact hcb
    · exact ih (E (zipXor iv b)) hcb (fun x hx => hbs x (by simp [hx])) c h

theorem cbcDec_cbcEnc (E D : List Nat → List Nat)
    (hDE : ∀ x : List Nat, D (E x) = x)
    (hE16 : ∀ x : List Nat, x.length = 16 → (E x).length = 16) :
    ∀ (bs : List (List Nat)) (iv : List Nat), iv.length = 16 →
    (∀ b ∈ bs, b.length = 16) →
    cbcDec D iv (cbcEnc E iv bs) = bs := by
  intro bs
  induction bs with
  | nil => intro iv _ _; simp [cbcEnc, cbcDec]
  | cons b bs ih =>
    intro iv hiv hbs
    have hb : b.length = 16 := hbs b (by simp)
    have hxor : (zipXor iv b).length = 16 := by
      simp [zipXor_length, hiv, hb]
    have hcb : (E (zipXor iv b)).length = 16 := hE16 _ hxor
    simp only [cbcEnc, cbcDec, hDE, List.cons.injEq]
    exact ⟨zipXor_zipXor iv b (by omega),
      ih (E (zipXor iv b)) hcb (fun x hx => hbs x (by simp [hx]))⟩

theorem replicate_eq_append (m a : Nat) (hm : 1 ≤ m) :
    List.replicate m a = List.replicate (m - 1) a ++ [a] := by
  cases m with
  | zero => omega
  | succ k => simp [List.replicate_succ']

theorem pkcs7pad_length (pt : List Nat) :
    (pkcs7pad pt).length = pt.length + (16 - pt.length % 16) := by
  simp [pkcs7pad]

theorem pkcs7pad_ne_nil (pt : List Nat) : pkcs7pad pt ≠ [] := by
  intro h
  have := pkcs7pad_length pt
  rw [h] at this
  simp only [List.length_nil] at this
  omega

theorem pkcs7pad_length_mod (pt : List Nat) :
    (pkcs7pad pt).length % 16 = 0 := by
  rw [pkcs7pad_length]; omega

theorem pkcs7unpad_pkcs7pad (pt : List Nat) :
    pkcs7unpad (pkcs7pad pt) = some pt := by
  set n := 16 - pt.length % 16 with hn
  have hn1 : 1 ≤ n := by omega
  have hn16 : n ≤ 16 := by omega
  have hpad : pkcs7pad pt = pt ++ List.replicate n n := rfl
  have hlen : (pkcs7pad pt).length = pt.length + n := by
    rw [hpad]; simp
  have hrep : pkcs7pad pt = (pt ++ List.replicate (n - 1) n) ++ [n] := by
    rw [hpad, replicate_eq_append n n hn1, List.append_assoc]
  have hlast : (pkcs7pad pt).getLast? = some n := by
    rw [hrep]; simp [List.getLast?_append]
  have hsub : (pkcs7pad pt).length - n = pt.length := by rw [hlen]; omega
  have hdrop : (pkcs7pad pt).drop pt.length = List.replicate n n := by
    rw [hpad]; exact List.drop_left _ _
  have htake : (pkcs7pad pt).take pt.length = pt := by
    rw [hpad]; exact List.take_left _ _
  unfold pkcs7unpad
  rw [hlast]
  rw [if_neg (by rw [hlen]; omega)]
  simp only
  rw [if_neg (by rw [hlen]; omega)]
  rw [hsub, hdrop, htake]
  rw [if_pos (by simp [List.all_eq_true, List.mem_replicate])]

theorem keyTag_length (id : List Nat) : (keyTag id).length = 8 := by
  simp only [keyTag, List.length_append, List.length_replicate,
    List.length_take]
  omega

theorem mem_keyTag {id : List Nat} {x : Nat} (hx : x ∈ keyTag id) :
    x ∈ id ∨ x = 0 := by
  simp only [keyTag, List.mem_append, List.mem_replicate] at hx
  rcases hx with h | h
  · exact Or.inl (List.take_subset _ _ h)
  · exact Or.inr h.2

theorem asciiDecode_keyTag {id : List Nat} (h : ∀ c ∈ id, c < 128) :
    asciiDecode (keyTag id) = some (keyTag id) := by
  unfold asciiDecode
  rw [if_pos]
  simp only [List.all_eq_true]
  intro x hx
  rcases mem_keyTag hx with h' | h'
  · simpa using h x h'
  · simp [h']

theorem dropWhile_replicate_zero (m : Nat) (r : List Nat) :
    (List.replicate m 0 ++ r).dropWhile (fun x => x = 0) =
      r.dropWhile (fun x => x = 0) := by
  induction m with
  | zero => simp
  | succ k ih => simp [List.replicate_succ, List.dropWhile_cons, ih]

theorem dropWhile_eq_self_of_pos {r : List Nat} (h : ∀ x ∈ r, 0 < x) :
    r.dropWhile (fun x => x = 0) = r := by
  cases r with
  | nil => rfl
  | cons a r =>
    have ha : a ≠ 0 := by have := h a (by simp); omega
    simp [List.dropWhile_cons, ha]

theorem rstripNulls_keyTag {id : List Nat} (h : ∀ c ∈ id, 0 < c) :
    rstripNulls (keyTag id) = id.take 8 := by
  unfold rstripNulls keyTag
  rw [List.reverse_append, List.reverse_replicate, dropWhile_replicate_zero,
    dropWhile_eq_self_of_pos
      (fun x hx => h x (List.take_subset _ _ (List.mem_reverse.mp hx))),
    List.reverse_reverse]

theorem decryptFile_encryptFile
    (E D : List Nat → List Nat → List Nat) (k : EncryptionKey)
    (iv pt : List Nat)
    (hDE : ∀ b : List Nat, D k.key (E k.key b) = b)
    (hE16 : ∀ b : List Nat, b.length = 16 → (E k.key b).length = 16)
    (hiv : iv.length = 16) (hsalt : k.salt.length = 16)
    (hid : ∀ c ∈ k.id, 0 < c ∧ c < 128) :
    decryptFile D k (encryptFile E k iv pt) = .ok pt := by
  have hidpos : ∀ c ∈ k.id, 0 < c := fun c hc => (hid c hc).1
  have hid128 : ∀ c ∈ k.id, c < 128 := fun c hc => (hid c hc).2
  set blocks := bytesToBlocks (pkcs7pad pt) with hblocks
  set ctj := List.flatten (cbcEnc (E k.key) iv blocks) with hctj
  have hblocks16 : ∀ b ∈ blocks, b.length = 16 :=
    bytesToBlocks_mem_length _ (pkcs7pad_length_mod pt)
  have hct16 : ∀ c ∈ cbcEnc (E k.key) iv blocks, c.length = 16 :=
    cbcEnc_mem_length _ hE16 blocks iv hiv hblocks16
  have hbne : blocks ≠ [] := bytesToBlocks_ne_nil _ (pkcs7pad_ne_nil pt)
  have henc : encryptFile E k iv pt
      = MAGIC ++ (keyTag k.id ++ (iv ++ (k.salt ++ ctj))) := by
    simp [encryptFile, List.append_assoc]
  have hctne : ctj ≠ [] := by
    rw [hctj]
    cases hb : blocks with
    | nil => exact absurd hb hbne
    | cons b bs =>
      simp only [cbcEnc, List.flatten_cons]
      intro hcontra
      rw [List.append_eq_nil] at hcontra
      have hc : (E k.key (zipXor iv b)).length = 16 := by
        apply hct16
        rw [hb]
        simp [cbcEnc]
      rw [hcontra.1] at hc
      simp at hc
  have h1 : (MAGIC ++ (keyTag k.id ++ (iv ++ (k.salt ++ ctj)))).take
      MAGIC.length = MAGIC := List.take_left _ _
  have h2 : (MAGIC ++ (keyTag k.id ++ (iv ++ (k.salt ++ ctj)))).drop
      MAGIC.length = keyTag k.id ++ (iv ++ (k.salt ++ ctj)) :=
    List.drop_left _ _
  have h3 : (keyTag k.id ++ (iv ++ (k.salt ++ ctj))).take 8 = keyTag k.id :=
    List.take_left' (keyTag_length _)
  have h4 : (keyTag k.id ++ (iv ++ (k.salt ++ ctj))).drop 8 =
      iv ++ (k.salt ++ ctj) := List.drop_left' (keyTag_length _)
  have h5 : (iv ++ (k.salt ++ ctj)).take 16 = iv := List.take_left' hiv
  have h6 : (iv ++ (k.salt ++ ctj)).drop 16 = k.salt ++ ctj :=
    List.drop_left' hiv
  have h7 : (k.salt ++ ctj).take 16 = k.salt := List.take_left' hsalt
  have h8 : (iv ++ (k.salt ++ ctj)).drop 32 = ctj := by
    rw [show iv ++ (k.salt ++ ctj) = (iv ++ k.salt) ++ ctj from
      (List.append_assoc _ _ _).symm]
    exact List.drop_left' (by simp [hiv, hsalt])
  have h9 : asciiDecode (keyTag k.id) = some (keyTag k.id) :=
    asciiDecode_keyTag hid128
  have h10 : rstripNulls (keyTag k.id) = k.id.take 8 :=
    rstripNulls_keyTag hidpos
  have h11 : ctj.isEmpty = false := by
    cases hc : ctj with
    | nil => exact absurd hc hctne
    | cons x xs => rfl
  have h12 : bytesToBlocks ctj = cbcEnc (E k.key) iv blocks :=
    bytesToBlocks_of_flatten _ hct16
  have h13 : cbcDec (D k.key) iv (cbcEnc (E k.key) iv blocks) = blocks :=
    cbcDec_cbcEnc _ _ hDE hE16 blocks iv hiv hblocks16
  have h14 : List.flatten blocks = pkcs7pad pt := bytesToBlocks_flatten _
  have h15 : pkcs7unpad (pkcs7pad pt) = some pt := pkcs7unpad_pkcs7pad pt
  rw [henc]
  simp only [decryptFile, h1, h2, h3, h4, h5, h6, h7, h8, h9, h10, h11, h12,
    h13, h14, h15, hiv, hsalt, ne_eq, not_true_eq_false, if_false,
    Bool.false_eq_true]
  simp

theorem decryptFile_congr (D : List Nat → List Nat → List Nat)
    (k k' : EncryptionKey) (file : List Nat)
    (hkey : k.key = k'.key) (htag : k.id.take 8 = k'.id.take 8) :
    decryptFile D k file = decryptFile D k' file := by
  unfold decryptFile
  rw [hkey, htag]

/-! ## Claims -/

/-- C1: for every plaintext `pt` and every key (its id an ASCII token
without null bytes, its salt the 16 bytes the data model requires),
encrypting with a fresh 16-byte IV and decrypting with the same key
succeeds and returns the plaintext byte-for-byte.  `E`/`D` are the
AES-256 block encryption/decryption of the `cryptography` backend,
assumed mutually inverse and block-length preserving on the key in
use. -/
theorem encrypt_decrypt_roundtrip
    (E D : List Nat → List Nat → List Nat) (k : EncryptionKey)
    (iv pt : List Nat)
    (hDE : ∀ b : List Nat, D k.key (E k.key b) = b)
    (hE16 : ∀ b : List Nat, b.length = 16 → (E k.key b).length = 16)
    (hiv : iv.length = 16) (hsalt : k.salt.length = 16)
    (hid : ∀ c ∈ k.id, 0 < c ∧ c < 128) :
    decryptFile D k (encryptFile E k iv pt) = .ok pt :=
  decryptFile_encryptFile E D k iv pt hDE hE16 hiv hsalt hid

/-- C1 witness: a concrete 3-byte file under a concrete key round-trips
(covering the size-0 padding logic through `pkcs7unpad_pkcs7pad`). -/
theorem encrypt_decrypt_roundtrip_witness :
    (List.replicate 16 9 : List Nat).length = 16 ∧
    (EncryptionKey.mk [97, 98, 99, 100, 101, 102, 48, 49]
      (List.replicate 32 7) (List.replicate 16 3) false).salt.length = 16 ∧
    (∀ c ∈ (EncryptionKey.mk [97, 98, 99, 100, 101, 102, 48, 49]
      (List.replicate 32 7) (List.replicate 16 3) false).id,
      0 < c ∧ c < 128) ∧
    decryptFile (fun _ b => b)
      (EncryptionKey.mk [97, 98, 99, 100, 101, 102, 48, 49]
        (List.replicate 32 7) (List.replicate 16 3) false)
      (encryptFile (fun _ b => b)
        (EncryptionKey.mk [97, 98, 99, 100, 101, 102, 48, 49]
          (List.replicate 32 7) (List.replicate 16 3) false)
        (List.replicate 16 9) [10, 20, 30]) = .ok [10, 20, 30] :=
  ⟨by decide, by decide, by decide,
    encrypt_decrypt_roundtrip _ _ _ _ _ (fun _ => rfl) (fun _ hb => hb)
      (by decide) (by decide) (by decide)⟩

/-- C2 counterexample: two keys whose ids differ only after the first
8 characters (and which share the same raw key bytes, which nothing in
the data model forbids).  The claim requires decryption to fail with
`WrongKey` because the ids differ; instead the 8-byte tag matches,
decryption proceeds and succeeds. -/
theorem key_isolation_counterexample :
    (EncryptionKey.mk [97, 97, 97, 97, 97, 97, 97, 97, 49] [0]
        (List.replicate 16 0) false).id ≠
      (EncryptionKey.mk [97, 97, 97, 97, 97, 97, 97, 97, 50] [0]
        (List.replicate 16 0) false).id ∧
    decryptFile (fun _ b => b)
      (EncryptionKey.mk [97, 97, 97, 97, 97, 97, 97, 97, 50] [0]
        (List.replicate 16 0) false)
      (encryptFile (fun _ b => b)
        (EncryptionKey.mk [97, 97, 97, 97, 97, 97, 97, 97, 49] [0]
          (List.replicate 16 0) false)
        (List.replicate 16 0) [5]) = .ok [5] := by
  refine ⟨by decide, ?_⟩
  rw [decryptFile_congr (fun _ b => b)
    (EncryptionKey.mk [97, 97, 97, 97, 97, 97, 97, 97, 50] [0]
      (List.replicate 16 0) false)
    (EncryptionKey.mk [97, 97, 97, 97, 97, 97, 97, 97, 49] [0]
      (List.replicate 16 0) false)
    _ (by decide) (by decide)]
  exact decryptFile_encryptFile _ _ _ _ _ (fun _ => rfl) (fun _ hb => hb)
    (by decide) (by decide) (by decide)

/-- C2 (amended): decryption under a key whose id differs from the
encrypting key's id *within the first 8 characters* fails with the
`WrongKey` result, and does so for every block-cipher function `D`, so
the mismatch is detected before any cipher operation; ids that agree on
their first 8 characters are not distinguished by the tag check. -/
theorem decrypt_wrong_key_tag_mismatch
    (E D : List Nat → List Nat → List Nat) (k1 k2 : EncryptionKey)
    (iv pt : List Nat)
    (hid1 : ∀ c ∈ k1.id, 0 < c ∧ c < 128)
    (htag : k1.id.take 8 ≠ k2.id.take 8) :
    decryptFile D k2 (encryptFile E k1 iv pt) = .wrongKey := by
  have hidpos : ∀ c ∈ k1.id, 0 < c := fun c hc => (hid1 c hc).1
  have hid128 : ∀ c ∈ k1.id, c < 128 := fun c hc => (hid1 c hc).2
  set ctj := List.flatten (cbcEnc (E k1.key) iv
    (bytesToBlocks (pkcs7pad pt))) with hctj
  have henc : encryptFile E k1 iv pt
      = MAGIC ++ (keyTag k1.id ++ (iv ++ (k1.salt ++ ctj))) := by
    simp [encryptFile, List.append_assoc]
  have h1 : (MAGIC ++ (keyTag k1.id ++ (iv ++ (k1.salt ++ ctj)))).take
      MAGIC.length = MAGIC := List.take_left _ _
  have h2 : (MAGIC ++ (keyTag k1.id ++ (iv ++ (k1.salt ++ ctj)))).drop
      MAGIC.length = keyTag k1.id ++ (iv ++ (k1.salt ++ ctj)) :=
    List.drop_left _ _
  have h3 : (keyTag k1.id ++ (iv ++ (k1.salt ++ ctj))).take 8 =
      keyTag k1.id := List.take_left' (keyTag_length _)
  have h9 : asciiDecode (keyTag k1.id) = some (keyTag k1.id) :=
    asciiDecode_keyTag hid128
  have h10 : rstripNulls (keyTag k1.id) = k1.id.take 8 :=
    rstripNulls_keyTag hidpos
  rw [henc]
  simp only [decryptFile, h1, h2, h3, h9, h10, ne_eq, not_true_eq_false,
    if_false]
  simp [htag]

/-- C2 witness: keys differing in the first 8 id characters are
rejected with `WrongKey`. -/
theorem decrypt_wrong_key_tag_mismatch_witness :
    (∀ c ∈ (EncryptionKey.mk [97, 98, 99, 100] [0] [1] false).id,
      0 < c ∧ c < 128) ∧
    (EncryptionKey.mk [97, 98, 99, 100] [0] [1] false).id.take 8 ≠
      (EncryptionKey.mk [97, 98, 99, 101] [0] [1] false).id.take 8 ∧
    decryptFile (fun _ b => b)
      (EncryptionKey.mk [97, 98, 99, 101] [0] [1] false)
      (encryptFile (fun _ b => b)
        (EncryptionKey.mk [97, 98, 99, 100] [0] [1] false) [2] [3]) =
      .wrongKey :=
  ⟨by decide, by decide,
    decrypt_wrong_key_tag_mismatch _ _ _ _ _ _ (by decide) (by decide)⟩

/-- C5: for every input file whose initial bytes are not exactly the magic
constant, `decrypt_file` fails with the `NotEncrypted` result; the result
holds for every key and every block-cipher function, so no key tag, IV,
salt or ciphertext processing can influence it. -/
theorem decrypt_rejects_non_magic (D : List Nat → List Nat → List Nat)
    (k : EncryptionKey) (file : List Nat)
    (h : file.take MAGIC.length ≠ MAGIC) :
    decryptFile D k file = .notEncrypted := by
  unfold decryptFile
  rw [if_pos h]

/-- C5 witness: a concrete non-magic file is rejected. -/
theorem decrypt_rejects_non_magic_witness :
    ([1, 2, 3] : List Nat).take MAGIC.length ≠ MAGIC ∧
    decryptFile (fun _ b => b) ⟨[], [], [], false⟩ [1, 2, 3] =
      .notEncrypted :=
  ⟨by decide,
    decrypt_rejects_non_magic (fun _ b => b) ⟨[], [], [], false⟩ [1, 2, 3]
      (by decide)⟩

/-- C6: `get_optimal_chunk_size` is, for each storage-type flag, a
non-decreasing function of the file size, and always returns a positive
multiple of 16. -/
theorem chunk_size_monotone_mul16 (ssd : Bool) (a b : Nat) (h : a ≤ b) :
    get_optimal_chunk_size ssd a ≤ get_optimal_chunk_size ssd b ∧
    get_optimal_chunk_size ssd a % 16 = 0 ∧
    0 < get_optimal_chunk_size ssd a := by
  have hbase : ∀ n : Nat, 262144 ≤ chunk_base n := by
    intro n
    unfold chunk_base BASE_CHUNK_SIZE SMALL_FILE_THRESHOLD
      MEDIUM_FILE_THRESHOLD LARGE_FILE_THRESHOLD
    split_ifs <;> omega
  have hmono : chunk_base a ≤ chunk_base b := by
    unfold chunk_base BASE_CHUNK_SIZE SMALL_FILE_THRESHOLD
      MEDIUM_FILE_THRESHOLD LARGE_FILE_THRESHOLD
    split_ifs <;> omega
  have ha := hbase a
  have hb := hbase b
  cases ssd <;>
    simp only [get_optimal_chunk_size, BLOCK_SIZE, BASE_CHUNK_SIZE,
      Bool.not_true, Bool.not_false, if_true, if_false, Bool.false_eq_true,
      Bool.true_eq_false, ite_true, ite_false] <;>
    exact ⟨by omega, by omega, by omega⟩

/-- C6 witness: instantiation at sizes 0 ≤ 5. -/
theorem chunk_size_monotone_mul16_witness :
    (0 : Nat) ≤ 5 ∧
    (get_optimal_chunk_size true 0 ≤ get_optimal_chunk_size true 5 ∧
     get_optimal_chunk_size true 0 % 16 = 0 ∧
     0 < get_optimal_chunk_size true 0) :=
  ⟨by decide, chunk_size_monotone_mul16 true 0 5 (by decide)⟩

/-- C7 counterexample: a state where the backup copy is missing but the
salt and encrypted-token files exist; `is_initialized` reports `true`,
while the claim requires `false` whenever any of the three artifacts is
missing. -/
theorem is_initialized_counterexample :
    (MKState.mk (some []) (some []) none).backupFile = none ∧
    is_initialized ⟨some [], some [], none⟩ = true := by decide

/-- C7 (amended): `is_initialized` returns true exactly when the salt
file and the encrypted-token file exist; the backup copy is not
consulted. -/
theorem is_initialized_ignores_backup (s : MKState) :
    is_initialized s = true ↔
      (s.masterKeyFile.isSome = true ∧ s.saltFile.isSome = true) := by
  obtain ⟨sf, mkf, bf⟩ := s
  cases sf <;> cases mkf <;> simp [is_initialized]

/-- C9: when the downloaded bytes do not begin with the encryption
magic, `download_decrypted` copies them to the local destination
unmodified and reports success — for every key and every block-cipher
function, so no decryption is attempted. -/
theorem download_plaintext_passthrough (D : List Nat → List Nat → List Nat)
    (k : EncryptionKey) (downloaded : List Nat)
    (h : downloaded.take MAGIC.length ≠ MAGIC) :
    download_decrypted D k downloaded = (true, some downloaded) := by
  unfold download_decrypted is_encrypted_file
  rw [if_neg (by simpa using h)]

/-- C9 witness: a concrete plaintext download is passed through. -/
theorem download_plaintext_passthrough_witness :
    ([0] : List Nat).take MAGIC.length ≠ MAGIC ∧
    download_decrypted (fun _ b => b) ⟨[], [], [], false⟩ [0] =
      (true, some [0]) :=
  ⟨by decide,
    download_plaintext_passthrough (fun _ b => b) ⟨[], [], [], false⟩ [0]
      (by decide)⟩

/-- C10: `get_encrypted_remote_path` is idempotent, and for every path
that does not already end with the `'.encrypted'` marker,
`get_decrypted_local_path` undoes it. -/
theorem encrypted_path_idempotent_inverse (p : List Char) :
    get_encrypted_remote_path (get_encrypted_remote_path p) =
      get_encrypted_remote_path p ∧
    (¬ encryptedExtension <:+ p →
      get_decrypted_local_path (get_encrypted_remote_path p) = p) := by
  by_cases h : encryptedExtension <:+ p
  · refine ⟨?_, fun hc => absurd h hc⟩
    simp [get_encrypted_remote_path, h]
  · have hs : encryptedExtension <:+ p ++ encryptedExtension :=
      List.suffix_append _ _
    refine ⟨?_, fun _ => ?_⟩
    · simp [get_encrypted_remote_path, h, hs]
    · simp only [get_encrypted_remote_path, get_decrypted_local_path,
        if_neg h, if_pos hs, List.length_append]
      rw [show p.length + encryptedExtension.length -
          encryptedExtension.length = p.length from by omega,
        List.take_left]

/-- C10 witness: instantiation at the one-character path `"a"`. -/
theorem encrypted_path_idempotent_inverse_witness :
    ¬ encryptedExtension <:+ ['a'] ∧
    get_decrypted_local_path (get_encrypted_remote_path ['a']) = ['a'] :=
  ⟨by decide, (encrypted_path_idempotent_inverse ['a']).2 (by decide)⟩

/-- C3: from any initialized state in which the old password verifies,
a successful `change_password(old, new)` makes `verify_password(new)`
true and `verify_password(old)` false.  `hRound` and `hWrong` are the
Fernet properties at the keys involved: encryption under the new
derived key decrypts under it and fails to decrypt under the key
derived from the old password with the new salt (distinct passwords
derive distinct keys, PBKDF2 collisions aside). -/
theorem change_password_verify
    (kdf : List Nat → List Nat → List Nat)
    (fenc : List Nat → List Nat → List Nat)
    (fdec : List Nat → List Nat → Option (List Nat))
    (s : MKState) (old new newSalt : List Nat)
    (hOld : verify_password kdf fdec s old = true)
    (hRound : ∀ m, fdec (kdf new newSalt) (fenc (kdf new newSalt) m) =
      some m)
    (hWrong : ∀ m, fdec (kdf old newSalt) (fenc (kdf new newSalt) m) =
      none) :
    (change_password kdf fenc fdec s old new newSalt).1 = true ∧
    verify_password kdf fdec
      (change_password kdf fenc fdec s old new newSalt).2 new = true ∧
    verify_password kdf fdec
      (change_password kdf fenc fdec s old new newSalt).2 old = false := by
  obtain ⟨sf, mkf, bf⟩ := s
  cases sf with
  | none => simp [verify_password, is_initialized] at hOld
  | some salt =>
    cases mkf with
    | none => simp [verify_password, is_initialized] at hOld
    | some enc =>
      have hdec : (fdec (kdf old salt) enc).isSome = true := by
        simpa [verify_password, is_initialized] using hOld
      cases hd : fdec (kdf old salt) enc with
      | none => rw [hd] at hdec; simp at hdec
      | some data =>
        simp [change_password, hOld, hd, verify_password, is_initialized,
          hRound, hWrong]

/-- C3 witness: a concrete state, KDF and cipher, with old password
`[0]` and new password `[1]`. -/
theorem change_password_verify_witness :
    verify_password (fun p _ => p)
      (fun k c => if c.take k.length = k then some (c.drop k.length)
        else none)
      ⟨some [3], some [0, 42], some [9]⟩ [0] = true ∧
    ((change_password (fun p _ => p) (fun k m => k ++ m)
        (fun k c => if c.take k.length = k then some (c.drop k.length)
          else none)
        ⟨some [3], some [0, 42], some [9]⟩ [0] [1] [7]).1 = true ∧
      verify_password (fun p _ => p)
        (fun k c => if c.take k.length = k then some (c.drop k.length)
          else none)
        (change_password (fun p _ => p) (fun k m => k ++ m)
          (fun k c => if c.take k.length = k then some (c.drop k.length)
            else none)
          ⟨some [3], some [0, 42], some [9]⟩ [0] [1] [7]).2 [1] = true ∧
      verify_password (fun p _ => p)
        (fun k c => if c.take k.length = k then some (c.drop k.length)
          else none)
        (change_password (fun p _ => p) (fun k m => k ++ m)
          (fun k c => if c.take k.length = k then some (c.drop k.length)
            else none)
          ⟨some [3], some [0, 42], some [9]⟩ [0] [1] [7]).2 [0] = false) :=
  ⟨by decide,
    change_password_verify _ _ _ _ _ _ _ (by decide) (fun _ => rfl)
      (fun _ => rfl)⟩

/-- C4: for every prior state (and independently of it), if the given
backup file exists, `restore_from_backup` succeeds and the new password
verifies afterwards; no previous password enters the computation, and
the resulting state is the same whatever the prior state was.
`hRound` is the Fernet round-trip property at the newly derived key. -/
theorem restore_from_backup_verify
    (kdf : List Nat → List Nat → List Nat)
    (fenc : List Nat → List Nat → List Nat)
    (fdec : List Nat → List Nat → Option (List Nat))
    (s s' : MKState) (bd newPassword newSalt : List Nat)
    (hRound : fdec (kdf newPassword newSalt)
      (fenc (kdf newPassword newSalt) VALIDATION_TOKEN) =
        some VALIDATION_TOKEN) :
    (restore_from_backup kdf fenc s (some bd) newPassword newSalt).1 =
      true ∧
    verify_password kdf fdec
      (restore_from_backup kdf fenc s (some bd) newPassword newSalt).2
      newPassword = true ∧
    (restore_from_backup kdf fenc s (some bd) newPassword newSalt).2 =
      (restore_from_backup kdf fenc s' (some bd) newPassword newSalt).2 := by
  refine ⟨rfl, ?_, rfl⟩
  simp [restore_from_backup, verify_password, is_initialized, hRound]

/-- C4 witness: restore over a previously uninitialized state with a
concrete KDF and cipher. -/
theorem restore_from_backup_verify_witness :
    (fun (k : List Nat) (c : List Nat) =>
        if c.take k.length = k then some (c.drop k.length) else none)
      ((fun (p : List Nat) (_ : List Nat) => p) [1] [7])
      ((fun (k : List Nat) (m : List Nat) => k ++ m)
        ((fun (p : List Nat) (_ : List Nat) => p) [1] [7])
        VALIDATION_TOKEN) = some VALIDATION_TOKEN ∧
    ((restore_from_backup (fun p _ => p) (fun k m => k ++ m)
        ⟨none, none, none⟩ (some [4]) [1] [7]).1 = true ∧
      verify_password (fun p _ => p)
        (fun k c => if c.take k.length = k then some (c.drop k.length)
          else none)
        (restore_from_backup (fun p _ => p) (fun k m => k ++ m)
          ⟨none, none, none⟩ (some [4]) [1] [7]).2 [1] = true ∧
      (restore_from_backup (fun p _ => p) (fun k m => k ++ m)
        ⟨none, none, none⟩ (some [4]) [1] [7]).2 =
        (restore_from_backup (fun p _ => p) (fun k m => k ++ m)
          ⟨some [1], some [2], some [3]⟩ (some [4]) [1] [7]).2) :=
  ⟨by decide,
    restore_from_backup_verify _ _ _ _ _ _ _ _ (by decide)⟩

/-- C8 counterexample: a store state whose persisted file holds
undecryptable bytes and whose directory holds no backup copies.  The
claim requires loading to create a timestamped backup copy and replace
the file with an empty store; instead `_load_keys` leaves the state
exactly as it was: the corrupt bytes are still the store file and no
backup copy exists. -/
theorem load_keys_counterexample :
    load_keys (fun _ _ => none) (fun _ => none) []
      ⟨some [1, 2, 3], []⟩ = ([], ⟨some [1, 2, 3], []⟩) ∧
    (load_keys (fun _ _ => none) (fun _ => none) []
      ⟨some [1, 2, 3], []⟩).2.keysFile = some [1, 2, 3] ∧
    (load_keys (fun _ _ => none) (fun _ => none) []
      ⟨some [1, 2, 3], []⟩).2.backupCopies = [] := by decide

/-- C8 (amended): when the persisted key-store file exists but its
contents cannot be turned into a key map — the file is empty, Fernet
decryption fails, or decryption succeeds and the JSON parse fails —
loading yields the empty key collection instead of an error, and the
store state is returned untouched: the corrupted file stays in place,
no backup copy is made and nothing is replaced. -/
theorem load_keys_corrupt_empty
    (fdec : List Nat → List Nat → Option (List Nat))
    (parse : List Nat → Option (List (List Nat × List Nat)))
    (masterKey : List Nat) (st : KeyStoreState) (d : List Nat)
    (hfile : st.keysFile = some d)
    (hfail : d = [] ∨ fdec masterKey d = none ∨
      (∃ plain, fdec masterKey d = some plain ∧ parse plain = none)) :
    load_keys fdec parse masterKey st = ([], st) := by
  simp only [load_keys, hfile]
  by_cases hd : d.isEmpty
  · simp [hd]
  · rcases hfail with h | h | ⟨plain, hp, hpar⟩
    · exact absurd (by simp [h]) hd
    · simp [hd, h]
    · simp [hd, hp, hpar]

/-- C8 witness: a concrete undecryptable store (with a pre-existing
unrelated backup copy, which stays untouched). -/
theorem load_keys_corrupt_empty_witness :
    (KeyStoreState.mk (some [9]) [[7]]).keysFile = some [9] ∧
    (fun (_ : List Nat) (_ : List Nat) =>
      (none : Option (List Nat))) [] [9] = none ∧
    load_keys (fun _ _ => none) (fun _ => some []) []
      ⟨some [9], [[7]]⟩ = ([], ⟨some [9], [[7]]⟩) :=
  ⟨by decide, by decide,
    load_keys_corrupt_empty (fun _ _ => none) (fun _ => some []) []
      ⟨some [9], [[7]]⟩ [9] (by decide) (Or.inr (Or.inl rfl))⟩

end WebdavManager
